import Mathlib

/-!
Verification of the Gaussian-elimination linear-system class in `linsys.py`.

The embedding translates the Python source into Lean over exact rationals:
each `Plane` (hyperplane) carries a normal vector (list of coefficients) and
a constant term, and a `LinearSystem` carries an ordered list of planes plus
the ambient dimension.  Python exceptions are modelled by the `PyErr` type
and `Except`/product results; Python's mutable loops become explicit
recursion, with a fuel parameter where the source's `while` loop is not
structurally decreasing.
-/

set_option autoImplicit false

namespace LinSys

/-- Python exceptions that the source can raise or catch: `IndexError`,
a generic `Exception` carrying a message, and the `NoNonZeroElements`
signal class from `nonzero.py`. -/
inductive PyErr where
  | indexError : PyErr
  | exception (msg : String) : PyErr
  | noNonZeroElements (msg : String) : PyErr
deriving DecidableEq, Repr

/-- Modelled from the spec: the hyperplane entity of `plane.py` (not under
`src/`): a geometric object with a normal vector of coefficients and a
constant term; its `dimension` is the length of the normal vector. -/
structure Plane where
  normal_vector : List ℚ
  constant_term : ℚ
deriving DecidableEq, Repr

instance : Inhabited Plane := ⟨⟨[], 0⟩⟩

/-- Dimension of a hyperplane: the number of coefficients. -/
def Plane.dimension (p : Plane) : ℕ := p.normal_vector.length

/-- Coefficient access `plane[i]` used by the elimination engine. -/
def Plane.coeff (p : Plane) (i : ℕ) : ℚ := p.normal_vector.getD i 0

/-- Modelled from the spec: scalar multiplication `plane * c` of the
hyperplane collaborator scales every coefficient and the constant term. -/
def Plane.mul (p : Plane) (c : ℚ) : Plane :=
  ⟨p.normal_vector.map (fun x => x * c), p.constant_term * c⟩

/-- Modelled from the spec: hyperplane addition `plane + plane` adds
coefficients componentwise and adds the constant terms. -/
def Plane.add (p q : Plane) : Plane :=
  ⟨List.zipWith (fun a b => a + b) p.normal_vector q.normal_vector,
   p.constant_term + q.constant_term⟩

/-- Modelled from the spec: hyperplane subtraction `plane - plane`. -/
def Plane.sub (p q : Plane) : Plane :=
  ⟨List.zipWith (fun a b => a - b) p.normal_vector q.normal_vector,
   p.constant_term - q.constant_term⟩

/-- Modelled from the spec: the message of the no-nonzero-elements signal
(`Plane.NO_NONZERO_ELTS_FOUND_MSG` in `plane.py`). -/
def NO_NONZERO_ELTS_FOUND_MSG : String := "No nonzero elements found"

/-- Modelled from the spec: `plane.first_nonzero_index(vector)` returns the
0-based index of the first nonzero entry, raising the distinguishable
`NoNonZeroElements` signal when every entry is zero. -/
def Plane.first_nonzero_index : List ℚ → Except PyErr ℕ
  | [] => .error (.noNonZeroElements NO_NONZERO_ELTS_FOUND_MSG)
  | x :: xs =>
    if x ≠ 0 then .ok 0
    else (Plane.first_nonzero_index xs).map (fun k => k + 1)

/-- The linear system: an ordered list of hyperplanes and the common
ambient dimension, exactly the two attributes set by `__init__`. -/
structure LinearSystem where
  planes : List Plane
  dimension : ℕ
deriving DecidableEq, Repr

/-- `LinearSystem.SAME_DIM_MSG` from the source. -/
def SAME_DIM_MSG : String := "All planes in the system should live in the same dimension"

/-- Embeds `LinearSystem.__init__`: reading `planes[0].dimension` of an
empty list raises `IndexError` (uncaught, since only `AssertionError` is
handled); a dimension mismatch trips the assertion, re-raised as a generic
`Exception` with `SAME_DIM_MSG`; otherwise the attributes are set. -/
def LinearSystem.init (planes : List Plane) : Except PyErr LinearSystem :=
  match planes with
  | [] => .error .indexError
  | p0 :: _ =>
    if planes.all (fun p => p.dimension == p0.dimension) then
      .ok ⟨planes, p0.dimension⟩
    else
      .error (.exception SAME_DIM_MSG)

/-- Swap of two list entries, the body of `swap_rows`: read `planes[i]`
into a temporary, assign `planes[i] = planes[j]`, then `planes[j]` gets
the temporary. -/
def swapRows (ps : List Plane) (i j : ℕ) : List Plane :=
  let row_1 := ps.getD i default
  ((ps.set i (ps.getD j default)).set j row_1)

/-- Embeds `LinearSystem.swap_rows`. -/
def LinearSystem.swap_rows (s : LinearSystem) (index_1 index_2 : ℕ) : LinearSystem :=
  ⟨swapRows s.planes index_1 index_2, s.dimension⟩

/-- Embeds `LinearSystem.multiply_coefficient_and_row`: replaces row `row`
with `planes[row] * coefficient`. -/
def LinearSystem.multiply_coefficient_and_row (s : LinearSystem) (coefficient : ℚ)
    (row : ℕ) : LinearSystem :=
  ⟨s.planes.set row ((s.planes.getD row default).mul coefficient), s.dimension⟩

/-- Embeds `LinearSystem.add_multiple_times_row_to_row`. -/
def LinearSystem.add_multiple_times_row_to_row (s : LinearSystem) (coefficient : ℚ)
    (row_to_add row_to_be_added_to : ℕ) : LinearSystem :=
  let plane := (s.planes.getD row_to_add default).mul coefficient
  ⟨s.planes.set row_to_be_added_to
      ((s.planes.getD row_to_be_added_to default).add plane), s.dimension⟩

/-- Embeds `LinearSystem.__setitem__` as a state-plus-exception pair: the
dimension assertion fires before any mutation, so on `AssertionError`
(re-raised as the `SAME_DIM_MSG` exception) the rows are unchanged; an
out-of-range index raises `IndexError` from the list assignment, also
before any change; otherwise the plane is stored at `index`. -/
def LinearSystem.setitem (s : LinearSystem) (index : ℕ) (plane : Plane) :
    LinearSystem × Option PyErr :=
  if plane.dimension = s.dimension then
    if index < s.planes.length then
      (⟨s.planes.set index plane, s.dimension⟩, none)
    else
      (s, some .indexError)
  else
    (s, some (.exception SAME_DIM_MSG))

/-- Embeds `get_first_nonzero_indexes`, generic in the collaborator call
`fni` (the source calls `plane.first_nonzero_index(plane.normal_vector)`).
Each row's index defaults to `-1`; a raised `NoNonZeroElements` whose
message equals `NO_NONZERO_ELTS_FOUND_MSG` is swallowed (`continue`),
leaving the `-1`; any other raise aborts the whole call. -/
def get_first_nonzero_indexes_with (fni : Plane → Except PyErr ℕ) :
    List Plane → Except PyErr (List ℤ)
  | [] => .ok []
  | p :: rest =>
    let idx : Except PyErr ℤ :=
      match fni p with
      | .ok k => .ok (k : ℤ)
      | .error (.noNonZeroElements msg) =>
        if msg = NO_NONZERO_ELTS_FOUND_MSG then .ok (-1)
        else .error (.noNonZeroElements msg)
      | .error e => .error e
    match idx with
    | .ok v => (get_first_nonzero_indexes_with fni rest).map (fun l => v :: l)
    | .error e => .error e

/-- Embeds `LinearSystem.get_first_nonzero_indexes` with the concrete
hyperplane collaborator. -/
def LinearSystem.get_first_nonzero_indexes (s : LinearSystem) : Except PyErr (List ℤ) :=
  get_first_nonzero_indexes_with
    (fun p => Plane.first_nonzero_index p.normal_vector) s.planes

/-- Index of the first nonzero entry of a coefficient list, `none` when
all entries are zero (specification-side mirror of the pivot query). -/
def pivotIdx : List ℚ → Option ℕ
  | [] => none
  | x :: xs => if x ≠ 0 then some 0 else (pivotIdx xs).map (fun k => k + 1)

/-- Specification-side value of the pivot scan on one row: the first
nonzero coefficient index, or the sentinel `-1` for an all-zero row. -/
def specFirstNonzero (p : Plane) : ℤ :=
  match pivotIdx p.normal_vector with
  | some k => (k : ℤ)
  | none => -1

/-- Coefficient of the `r`-th plane of a list at column `d`
(`planes[r][d]` in the source). -/
def coeffAt (ps : List Plane) (r d : ℕ) : ℚ := (ps.getD r default).coeff d

/-- Python's `round(q, 3)` on exact values: round to the nearest multiple
of `1/1000`, ties to the even multiple (banker's rounding). -/
def pyRound3 (q : ℚ) : ℚ :=
  let scaled := q * 1000
  let fl : ℤ := ⌊scaled⌋
  let frac := scaled - fl
  let n : ℤ :=
    if frac < 1/2 then fl
    else if 1/2 < frac then fl + 1
    else if fl % 2 = 0 then fl else fl + 1
  (n : ℚ) / 1000

/-! ### `compute_triangular_form`

The `for next_row in range(row + 1, rows - 1)` swap search, the
`for next_row in range(row + 1, rows)` clearing loop, the `while dim < dims`
cursor loop (fueled: it retries the same cursor after a swap), and the outer
`for row in range(0, rows - 1)` loop.  The cursor `dim` is *not* reset
between rows in the source; the value reached when a row breaks out is
carried into the next row's pass. -/

/-- The swap-search `for` loop body: swaps `row` with every scanned row
whose coefficient at `dim` is strictly positive, recording in the flag
whether any swap happened. -/
def swapScanGo (row dim : ℕ) : List Plane → List ℕ → List Plane × Bool
  | ps, [] => (ps, false)
  | ps, next_row :: rest =>
    if 0 < coeffAt ps next_row dim then
      let ps1 := swapRows ps row next_row
      let r := swapScanGo row dim ps1 rest
      (r.1, true)
    else
      swapScanGo row dim ps rest

/-- The swap search over `range(row + 1, rows - 1)`. -/
def swapScan (ps : List Plane) (row dim rows : ℕ) : List Plane × Bool :=
  swapScanGo row dim ps (List.range' (row + 1) (rows - 1 - (row + 1)))

/-- The clearing `for` loop body: for each row below, if its coefficient
at `dim` is nonzero, add `planes[row] * (-(coefficient_remove / pivot))`
to it.  `pivot` is the coefficient read once before the loop (row `row`
is not modified by the loop, so its value is stable). -/
def clearBelowGo (pivot : ℚ) (row dim : ℕ) : List Plane → List ℕ → List Plane
  | ps, [] => ps
  | ps, next_row :: rest =>
    let coefficient_remove := coeffAt ps next_row dim
    let ps1 :=
      if coefficient_remove ≠ 0 then
        let factor := (coefficient_remove / pivot) * (-1)
        let reduction_plane := (ps.getD row default).mul factor
        ps.set next_row ((ps.getD next_row default).add reduction_plane)
      else ps
    clearBelowGo pivot row dim ps1 rest

/-- The clearing loop over `range(row + 1, rows)`. -/
def clearBelow (pivot : ℚ) (ps : List Plane) (row dim rows : ℕ) : List Plane :=
  clearBelowGo pivot row dim ps (List.range' (row + 1) (rows - (row + 1)))

/-- The `while dim < dims` cursor loop of `compute_triangular_form` for one
row, with fuel: a zero coefficient triggers the swap search (retrying the
same cursor after a swap, advancing the cursor otherwise); a nonzero
coefficient clears below and breaks, returning the planes and the cursor
value carried into the next row. -/
def triWhile (rows dims : ℕ) : ℕ → List Plane → ℕ → ℕ → Option (List Plane × ℕ)
  | 0, _, _, _ => none
  | fuel + 1, ps, row, dim =>
    if dim < dims then
      let coefficient := coeffAt ps row dim
      if coefficient = 0 then
        let sw := swapScan ps row dim rows
        if sw.2 then triWhile rows dims fuel sw.1 row dim
        else triWhile rows dims fuel ps row (dim + 1)
      else
        some (clearBelow coefficient ps row dim rows, dim)
    else
      some (ps, dim)

/-- The fuel given to each row's cursor loop; proved sufficient below. -/
def triFuel (dims : ℕ) : ℕ := 2 * dims + 2

/-- The outer `for row in range(0, rows - 1)` loop, threading the planes
and the (unreset) cursor. -/
def triRowsGo (rows dims : ℕ) : List ℕ → List Plane → ℕ → Option (List Plane)
  | [], ps, _ => some ps
  | row :: rest, ps, dim =>
    match triWhile rows dims (triFuel dims) ps row dim with
    | none => none
    | some (ps1, dim1) => triRowsGo rows dims rest ps1 dim1

/-- Embeds `compute_triangular_form` on the deep copy, `none` on fuel
exhaustion (shown impossible by the termination theorem). -/
def compute_triangular_formAux (s : LinearSystem) : Option LinearSystem :=
  let rows := s.planes.length
  let dims := s.dimension
  match triRowsGo rows dims (List.range (rows - 1)) s.planes 0 with
  | none => none
  | some ps => some ⟨ps, s.dimension⟩

/-- Embeds `LinearSystem.compute_triangular_form`. -/
def LinearSystem.compute_triangular_form (s : LinearSystem) : LinearSystem :=
  match compute_triangular_formAux s with
  | some t => t
  | none => s

/-! ### `compute_rref_form`

Backward clearing pass over the triangular result, then the normalization
pass.  In the source the cursor `dim` is reset to `dims` after each row of
the backward pass, but the normalization pass never resets it: only its
first iteration (the last row) sees a live cursor. -/

/-- The under-row scan of the backward pass at a fixed `(row, dim)`, with
`coefficient` the value read before the scan: each `under_row =
range_index + 1` whose coefficient at `dim` rounds (3 decimals) to a
nonzero value is scaled by `abs(coefficient) / under_coeff` and added to
(`coefficient < 0`) or subtracted from (`coefficient >= 0`) row `row`. -/
def underScanGo (coefficient : ℚ) (row dim : ℕ) : List Plane → List ℕ → List Plane
  | ps, [] => ps
  | ps, range_index :: rest =>
    let under_row := range_index + 1
    let under_coeff := pyRound3 (coeffAt ps under_row dim)
    let ps1 :=
      if under_coeff ≠ 0 then
        let positive := coefficient < 0
        let sub_factor := |coefficient| / under_coeff
        let reduction_plane := (ps.getD under_row default).mul sub_factor
        ps.set row
          (if positive then (ps.getD row default).add reduction_plane
           else (ps.getD row default).sub reduction_plane)
      else ps
    underScanGo coefficient row dim ps1 rest

/-- The under-row scan over `range(row, rows - 1)`. -/
def underScan (coefficient : ℚ) (ps : List Plane) (row dim rows : ℕ) : List Plane :=
  underScanGo coefficient row dim ps (List.range' row (rows - 1 - row))

/-- The `while dim > -1` loop of the backward pass for one row: the counter
is `dim + 1`, so counter `d + 1` processes cursor `d` and counts down;
every iteration decrements the cursor whether or not it acted. -/
def rrefRowPass (row rows : ℕ) : List Plane → ℕ → List Plane
  | ps, 0 => ps
  | ps, d + 1 =>
    let coefficient := coeffAt ps row d
    let ps1 := if coefficient ≠ 0 then underScan coefficient ps row d rows else ps
    rrefRowPass row rows ps1 d

/-- The backward pass `for row in range(rows - 1, -1, -1)`, the cursor
reset to `dims` after each row. -/
def rrefRowsGo (rows dimension : ℕ) : List ℕ → List Plane → List Plane
  | [], ps => ps
  | row :: rest, ps => rrefRowsGo rows dimension rest (rrefRowPass row rows ps dimension)

/-- One row of the normalization pass: for each live cursor value (counter
`d + 1` is cursor `d`, counting down), a nonzero coefficient rescales the
whole row by its inverse. -/
def normPass (row : ℕ) : List Plane → ℕ → List Plane
  | ps, 0 => ps
  | ps, d + 1 =>
    let coefficient := coeffAt ps row d
    let ps1 :=
      if coefficient ≠ 0 then
        let sub_factor := 1 / coefficient
        ps.set row ((ps.getD row default).mul sub_factor)
      else ps
    normPass row ps1 d

/-- The normalization `for row in range(rows - 1, -1, -1)` loop.  The
source never resets `dim` here, so after the first processed row the
counter is exhausted (`dim == -1`) and the remaining rows are untouched. -/
def normRowsGo (counter : ℕ) : List ℕ → List Plane → List Plane
  | [], ps => ps
  | row :: rest, ps => normRowsGo 0 rest (normPass row ps counter)

/-- Embeds `compute_rref_form` (on top of the triangular form), `none` on
fuel exhaustion of the triangular phase. -/
def compute_rref_formAux (s : LinearSystem) : Option LinearSystem :=
  match compute_triangular_formAux s with
  | none => none
  | some t =>
    let rows := t.planes.length
    let ps1 := rrefRowsGo rows t.dimension (List.range rows).reverse t.planes
    let ps2 := normRowsGo t.dimension (List.range rows).reverse ps1
    some ⟨ps2, t.dimension⟩

/-- Embeds `LinearSystem.compute_rref_form`. -/
def LinearSystem.compute_rref_form (s : LinearSystem) : LinearSystem :=
  match compute_rref_formAux s with
  | some t => t
  | none => s

/-! ### Specification-side definitions -/

/-- Pivot (first-nonzero) column of the `i`-th row of a plane list. -/
def pivAt (L : List Plane) (i : ℕ) : Option ℕ :=
  pivotIdx (L.getD i default).normal_vector

/-- Well-formedness of a constructed system: every row lives in the
system's ambient dimension (guaranteed by `__init__`). -/
def WF (s : LinearSystem) : Prop :=
  ∀ p ∈ s.planes, p.normal_vector.length = s.dimension

/-- Reduced row-echelon form: rows without a pivot sit below all rows with
one, pivot columns strictly increase down the rows, every pivot equals 1,
and every pivot column is zero in all other rows. -/
def IsRREF (s : LinearSystem) : Prop :=
  (∀ i, i < s.planes.length → ∀ j, j < s.planes.length → i < j →
      (pivAt s.planes j).isSome → (pivAt s.planes i).isSome)
  ∧ (∀ i, i < s.planes.length → ∀ j, j < s.planes.length → i < j →
      (pivAt s.planes i).isSome → (pivAt s.planes j).isSome →
      (pivAt s.planes i).getD 0 < (pivAt s.planes j).getD 0)
  ∧ (∀ i, i < s.planes.length → (pivAt s.planes i).isSome →
      coeffAt s.planes i ((pivAt s.planes i).getD 0) = 1)
  ∧ (∀ i, i < s.planes.length → ∀ j, j < s.planes.length → i ≠ j →
      (pivAt s.planes j).isSome →
      coeffAt s.planes i ((pivAt s.planes j).getD 0) = 0)

instance (s : LinearSystem) : Decidable (WF s) := by
  unfold WF
  infer_instance

instance (s : LinearSystem) : Decidable (IsRREF s) := by
  unfold IsRREF
  refine @instDecidableAnd _ _ ?_ (@instDecidableAnd _ _ ?_ (@instDecidableAnd _ _ ?_ ?_)) <;>
    infer_instance

/-- `r` minus the linear combination of the planes of `L` with the
coefficients of `a` (pointwise across both lists). -/
def comboSub : Plane → List Plane → List ℚ → Plane
  | r, _, [] => r
  | r, [], _ => r
  | r, p :: ps, c :: cs => comboSub (r.sub (p.mul c)) ps cs

/-- Column-`q` dot product of the coefficient list `a` against the planes
of `L`: the amount `comboSub` removes from column `q`. -/
def dotCol : List Plane → List ℚ → ℕ → ℚ
  | _, [], _ => 0
  | [], _ :: _, _ => 0
  | p :: ps, c :: cs, q => c * p.coeff q + dotCol ps cs q

/-- Support invariant of the backward clearing pass: the working row
equals the original row minus a combination of under rows, and every under
row carrying a nonzero coefficient lies strictly below `row` with a pivot
column strictly below the cursor bound `d`. -/
def GoodSupp (L : List Plane) (row d : ℕ) (a : List ℚ) : Prop :=
  a.length = L.length ∧
  ∀ u, u < L.length → a.getD u 0 ≠ 0 →
    row < u ∧ ∃ p, pivAt L u = some p ∧ p < d

/-! ## Basic lemmas on list access and plane arithmetic -/

theorem getD_set_ne {α : Type} {l : List α} {i j : ℕ} (h : i ≠ j) (a d : α) :
    (l.set i a).getD j d = l.getD j d := by
  simp [List.getD_eq_getElem?_getD, List.getElem?_set_ne h]

theorem getD_set_self {α : Type} {l : List α} {i : ℕ} (h : i < l.length) (a d : α) :
    (l.set i a).getD i d = a := by
  simp [List.getD_eq_getElem?_getD, List.getElem?_set_self h]

theorem getD_mem {α : Type} {l : List α} {i : ℕ} (h : i < l.length) (d : α) :
    l.getD i d ∈ l := by
  rw [List.getD_eq_getElem?_getD, List.getElem?_eq_getElem h]
  exact List.getElem_mem h

theorem set_getD_self {l : List Plane} {i : ℕ} (d : Plane) (h : i < l.length) :
    l.set i (l.getD i d) = l := by
  apply List.ext_getElem?
  intro n
  rcases eq_or_ne i n with rfl | hne
  · rw [List.getElem?_set_self h, List.getD_eq_getElem?_getD,
      List.getElem?_eq_getElem h]
    rfl
  · exact List.getElem?_set_ne hne

theorem getD_zipWith (f : ℚ → ℚ → ℚ) (hf : f 0 0 = 0) (a b : List ℚ)
    (h : a.length = b.length) (i : ℕ) :
    (List.zipWith f a b).getD i 0 = f (a.getD i 0) (b.getD i 0) := by
  induction a generalizing b i with
  | nil =>
    cases b with
    | nil => simpa using hf.symm
    | cons y ys => simp at h
  | cons x xs ih =>
    cases b with
    | nil => simp at h
    | cons y ys =>
      cases i with
      | zero => simp
      | succ n => simpa using ih ys (by simpa using h) n

theorem Plane.length_mul (p : Plane) (c : ℚ) :
    (p.mul c).normal_vector.length = p.normal_vector.length := by
  simp [Plane.mul]

theorem Plane.coeff_mul (p : Plane) (c : ℚ) (i : ℕ) :
    (p.mul c).coeff i = p.coeff i * c := by
  have h := List.getD_map p.normal_vector (0 : ℚ) (fun x => x * c) (n := i)
  simpa [Plane.mul, Plane.coeff] using h

theorem Plane.const_mul (p : Plane) (c : ℚ) :
    (p.mul c).constant_term = p.constant_term * c := rfl

theorem Plane.length_add {p q : Plane}
    (h : p.normal_vector.length = q.normal_vector.length) :
    (p.add q).normal_vector.length = p.normal_vector.length := by
  simp [Plane.add, h]

theorem Plane.coeff_add {p q : Plane}
    (h : p.normal_vector.length = q.normal_vector.length) (i : ℕ) :
    (p.add q).coeff i = p.coeff i + q.coeff i :=
  getD_zipWith (fun a b => a + b) (by norm_num) _ _ h i

theorem Plane.const_add (p q : Plane) :
    (p.add q).constant_term = p.constant_term + q.constant_term := rfl

theorem Plane.length_sub {p q : Plane}
    (h : p.normal_vector.length = q.normal_vector.length) :
    (p.sub q).normal_vector.length = p.normal_vector.length := by
  simp [Plane.sub, h]

theorem Plane.coeff_sub {p q : Plane}
    (h : p.normal_vector.length = q.normal_vector.length) (i : ℕ) :
    (p.sub q).coeff i = p.coeff i - q.coeff i :=
  getD_zipWith (fun a b => a - b) (by norm_num) _ _ h i

theorem Plane.const_sub (p q : Plane) :
    (p.sub q).constant_term = p.constant_term - q.constant_term := rfl

theorem Plane.ext_pointwise {p q : Plane}
    (hlen : p.normal_vector.length = q.normal_vector.length)
    (hc : ∀ i, p.coeff i = q.coeff i)
    (hk : p.constant_term = q.constant_term) : p = q := by
  cases p with | mk nv c =>
  cases q with | mk nv2 c2 =>
  simp only [Plane.coeff] at hc
  simp only [Plane.mk.injEq]
  refine ⟨List.ext_getElem hlen ?_, hk⟩
  intro n h1 h2
  have hn := hc n
  rwa [List.getD_eq_getElem?_getD, List.getD_eq_getElem?_getD,
    List.getElem?_eq_getElem h1, List.getElem?_eq_getElem h2] at hn

/-! ## Claim theorems: construction and row replacement -/

/-- C10: constructing a LinearSystem from an empty row list fails with the
index-out-of-bounds error from reading the first row's dimension, which is
a different error from the dimension-mismatch exception; construction never
succeeds on empty input. -/
theorem c10_empty_construction :
    LinearSystem.init [] = Except.error PyErr.indexError ∧
    PyErr.indexError ≠ PyErr.exception SAME_DIM_MSG := by
  exact ⟨rfl, by intro h; exact PyErr.noConfusion h⟩

/-- C5: constructing from rows with a dimension mismatch against the first
row always fails with exactly the `SAME_DIM_MSG` exception; constructing
from rows of equal dimension succeeds, storing the rows and reporting the
common dimension. -/
theorem c5_dimension_invariant (p0 : Plane) (rest : List Plane) :
    ((∃ p ∈ p0 :: rest, p.dimension ≠ p0.dimension) →
        LinearSystem.init (p0 :: rest) = Except.error (PyErr.exception SAME_DIM_MSG))
  ∧ ((∀ p ∈ p0 :: rest, p.dimension = p0.dimension) →
        LinearSystem.init (p0 :: rest) = Except.ok ⟨p0 :: rest, p0.dimension⟩) := by
  constructor
  · rintro ⟨p, hp, hne⟩
    have hall : ¬ ((p0 :: rest).all (fun q => q.dimension == p0.dimension) = true) := by
      rw [List.all_eq_true]
      intro h
      exact hne (by simpa using h p hp)
    simp only [LinearSystem.init, if_neg hall]
  · intro h
    have hall : (p0 :: rest).all (fun q => q.dimension == p0.dimension) = true := by
      rw [List.all_eq_true]
      intro q hq
      simpa using h q hq
    simp only [LinearSystem.init, if_pos hall]

/-- Witness for C5: a concrete mismatched construction fails with the fixed
message, and a concrete matched construction succeeds with the common
dimension. -/
theorem c5_dimension_invariant_witness :
    LinearSystem.init [⟨[1], 0⟩, ⟨[1, 2], 0⟩] =
      Except.error (PyErr.exception SAME_DIM_MSG) ∧
    LinearSystem.init [⟨[1], 0⟩, ⟨[2], 3⟩] =
      Except.ok ⟨[⟨[1], 0⟩, ⟨[2], 3⟩], 1⟩ := by
  constructor
  · exact (c5_dimension_invariant ⟨[1], 0⟩ [⟨[1, 2], 0⟩]).1
      ⟨⟨[1, 2], 0⟩, by simp, by decide⟩
  · exact (c5_dimension_invariant ⟨[1], 0⟩ [⟨[2], 3⟩]).2 (by decide)

/-- C6: replacing a row with a hyperplane of mismatched dimension raises
the `SAME_DIM_MSG` exception and leaves the rows untouched; replacing with
a matching hyperplane stores it at the index and changes no other row. -/
theorem c6_replace_row (s : LinearSystem) (index : ℕ) (plane : Plane) :
    (plane.dimension ≠ s.dimension →
        s.setitem index plane = (s, some (PyErr.exception SAME_DIM_MSG)))
  ∧ (plane.dimension = s.dimension → index < s.planes.length →
        s.setitem index plane = (⟨s.planes.set index plane, s.dimension⟩, none) ∧
        (s.setitem index plane).1.planes.getD index default = plane ∧
        ∀ j, j ≠ index →
          (s.setitem index plane).1.planes.getD j default = s.planes.getD j default) := by
  constructor
  · intro h
    simp [LinearSystem.setitem, h]
  · intro h hidx
    have heq : s.setitem index plane = (⟨s.planes.set index plane, s.dimension⟩, none) := by
      simp [LinearSystem.setitem, h, hidx]
    refine ⟨heq, ?_, ?_⟩
    · rw [heq]
      exact getD_set_self hidx plane default
    · intro j hj
      rw [heq]
      exact getD_set_ne (Ne.symm hj) plane default

/-- Witness for C6: a concrete mismatched replacement fails atomically and
a concrete matched replacement stores the new row. -/
theorem c6_replace_row_witness :
    ((⟨[⟨[1, 2], 3⟩, ⟨[4, 5], 6⟩], 2⟩ : LinearSystem).setitem 0 ⟨[9], 9⟩ =
        (⟨[⟨[1, 2], 3⟩, ⟨[4, 5], 6⟩], 2⟩, some (PyErr.exception SAME_DIM_MSG))) ∧
    ((⟨[⟨[1, 2], 3⟩, ⟨[4, 5], 6⟩], 2⟩ : LinearSystem).setitem 0 ⟨[7, 8], 9⟩ =
        (⟨[⟨[7, 8], 9⟩, ⟨[4, 5], 6⟩], 2⟩, none)) := by
  constructor
  · exact (c6_replace_row _ 0 _).1 (by decide)
  · exact ((c6_replace_row _ 0 _).2 (by decide) (by decide)).1

/-! ## Claim theorems: evaluation of the reducers at failing inputs -/

/-- C1: at the system with rows `2x = 2` and `y = 1`, `compute_rref_form`
returns the input unchanged, so row 0 keeps leading coefficient 2 instead
of being scaled to 1: the normalization pass's cursor is never reset after
the first (bottom) row, so no other row is normalized. -/
theorem c1_normalization_only_last_row :
    LinearSystem.compute_rref_form ⟨[⟨[2, 0], 2⟩, ⟨[0, 1], 1⟩], 2⟩ =
      ⟨[⟨[2, 0], 2⟩, ⟨[0, 1], 1⟩], 2⟩ ∧
    coeffAt (LinearSystem.compute_rref_form ⟨[⟨[2, 0], 2⟩, ⟨[0, 1], 1⟩], 2⟩).planes 0 0 = 2 ∧
    pivAt (LinearSystem.compute_rref_form ⟨[⟨[2, 0], 2⟩, ⟨[0, 1], 1⟩], 2⟩).planes 0 = some 0 := by
  with_unfolding_all decide

/-- C2: at the system with rows `y = 1` and `x = 1`, `compute_triangular_form`
returns the input unchanged, so the first-nonzero indexes of rows 0 and 1
are 1 and 0: pivot monotonicity fails because the swap search
`range(row + 1, rows - 1)` never considers the last row. -/
theorem c2_pivot_monotonicity_fails :
    LinearSystem.compute_triangular_form ⟨[⟨[0, 1], 1⟩, ⟨[1, 0], 1⟩], 2⟩ =
      ⟨[⟨[0, 1], 1⟩, ⟨[1, 0], 1⟩], 2⟩ ∧
    pivAt (LinearSystem.compute_triangular_form ⟨[⟨[0, 1], 1⟩, ⟨[1, 0], 1⟩], 2⟩).planes 0 =
      some 1 ∧
    pivAt (LinearSystem.compute_triangular_form ⟨[⟨[0, 1], 1⟩, ⟨[1, 0], 1⟩], 2⟩).planes 1 =
      some 0 := by
  with_unfolding_all decide

/-! ## Pivot scan (C7) -/

theorem first_nonzero_index_eq_pivotIdx (v : List ℚ) :
    Plane.first_nonzero_index v =
      (match pivotIdx v with
       | some k => Except.ok k
       | none => Except.error (PyErr.noNonZeroElements NO_NONZERO_ELTS_FOUND_MSG)) := by
  induction v with
  | nil => rfl
  | cons x xs ih =>
    by_cases hx : x = 0
    · have hnx : ¬ x ≠ 0 := by simpa using hx
      simp only [Plane.first_nonzero_index, pivotIdx, if_neg hnx, ih]
      cases pivotIdx xs <;> rfl
    · simp only [Plane.first_nonzero_index, pivotIdx, if_pos hx]

theorem get_fnzi_concrete (ps : List Plane) :
    get_first_nonzero_indexes_with
        (fun p => Plane.first_nonzero_index p.normal_vector) ps =
      Except.ok (ps.map specFirstNonzero) := by
  induction ps with
  | nil => rfl
  | cons p rest ih =>
    simp only [get_first_nonzero_indexes_with]
    rw [first_nonzero_index_eq_pivotIdx p.normal_vector]
    cases hpi : pivotIdx p.normal_vector with
    | some k => simp [specFirstNonzero, hpi, ih, Except.map]
    | none => simp [specFirstNonzero, hpi, ih, Except.map]

/-- C7: the pivot scan returns, for each row in order, the index of its
first nonzero coefficient, with the collaborator's no-nonzero-elements
signal mapped to the sentinel `-1` and never propagated; and any
collaborator failure other than that signal (a different exception, or the
signal class with a different message) aborts the scan with exactly that
error. -/
theorem c7_pivot_scan :
    (∀ s : LinearSystem,
        s.get_first_nonzero_indexes = Except.ok (s.planes.map specFirstNonzero))
  ∧ (∀ (fni : Plane → Except PyErr ℕ) (ps1 : List Plane) (p : Plane)
        (ps2 : List Plane) (e : PyErr),
        (∀ q ∈ ps1, (∃ k, fni q = Except.ok k) ∨
            fni q = Except.error (PyErr.noNonZeroElements NO_NONZERO_ELTS_FOUND_MSG)) →
        fni p = Except.error e →
        e ≠ PyErr.noNonZeroElements NO_NONZERO_ELTS_FOUND_MSG →
        get_first_nonzero_indexes_with fni (ps1 ++ p :: ps2) = Except.error e) := by
  constructor
  · intro s
    exact get_fnzi_concrete s.planes
  · intro fni ps1 p ps2 e hok hp hne
    induction ps1 with
    | nil =>
      simp only [List.nil_append, get_first_nonzero_indexes_with, hp]
      match e, hne with
      | PyErr.indexError, _ => rfl
      | PyErr.exception msg, _ => rfl
      | PyErr.noNonZeroElements msg, hne =>
        have hmsg : ¬ msg = NO_NONZERO_ELTS_FOUND_MSG := by
          intro h
          exact hne (by rw [h])
        simp only [if_neg hmsg]
    | cons q qs ih =>
      have hrec := ih (fun r hr => hok r (by simp [hr]))
      rcases hok q (by simp) with ⟨k, hk⟩ | hsig
      · simp [List.cons_append, get_first_nonzero_indexes_with, hk, hrec, Except.map]
      · simp [List.cons_append, get_first_nonzero_indexes_with, hsig, hrec, Except.map]

/-- Witness for C7: a concrete scan with a mixed zero row, and a concrete
failing collaborator whose index error propagates unchanged. -/
theorem c7_pivot_scan_witness :
    (⟨[⟨[0, 3], 1⟩, ⟨[0, 0], 2⟩], 2⟩ : LinearSystem).get_first_nonzero_indexes =
      Except.ok [1, -1] ∧
    get_first_nonzero_indexes_with (fun _ => Except.error PyErr.indexError)
      [⟨[5], 5⟩] = Except.error PyErr.indexError := by
  constructor
  · have h := c7_pivot_scan.1 ⟨[⟨[0, 3], 1⟩, ⟨[0, 0], 2⟩], 2⟩
    rw [h]
    have hmap : List.map specFirstNonzero
        [(⟨[0, 3], 1⟩ : Plane), ⟨[0, 0], 2⟩] = ([1, -1] : List ℤ) := by
      with_unfolding_all decide
    exact congrArg Except.ok hmap
  · exact c7_pivot_scan.2 (fun _ => Except.error PyErr.indexError) [] ⟨[5], 5⟩ []
      PyErr.indexError (by simp) rfl (by intro h; exact PyErr.noConfusion h)

/-! ## Swap-scan lemmas (C3, C9) -/

theorem swapScanGo_no_swap (row dim : ℕ) (ps : List Plane) (ns : List ℕ)
    (h : ∀ n ∈ ns, ¬ 0 < coeffAt ps n dim) :
    swapScanGo row dim ps ns = (ps, false) := by
  induction ns with
  | nil => rfl
  | cons n rest ih =>
    have hn := h n (by simp)
    simp only [swapScanGo, if_neg hn]
    exact ih fun m hm => h m (by simp [hm])

theorem swapScanGo_false_fst (row dim : ℕ) (ps : List Plane) (ns : List ℕ)
    (h : (swapScanGo row dim ps ns).2 = false) :
    (swapScanGo row dim ps ns).1 = ps := by
  induction ns generalizing ps with
  | nil => rfl
  | cons n rest ih =>
    by_cases hn : 0 < coeffAt ps n dim
    · simp [swapScanGo, if_pos hn] at h
    · simp only [swapScanGo, if_neg hn] at h ⊢
      exact ih ps h

theorem swapScanGo_swap (row dim : ℕ) (ps : List Plane) (ns : List ℕ)
    (h : ∃ n ∈ ns, 0 < coeffAt ps n dim) :
    (swapScanGo row dim ps ns).2 = true := by
  induction ns generalizing ps with
  | nil => simp at h
  | cons n rest ih =>
    by_cases hn : 0 < coeffAt ps n dim
    · simp [swapScanGo, if_pos hn]
    · rcases h with ⟨m, hm, hpos⟩
      rcases List.mem_cons.mp hm with rfl | hm2
      · exact absurd hpos hn
      · simp only [swapScanGo, if_neg hn]
        exact ih ps ⟨m, hm2, hpos⟩

theorem coeffAt_oob {ps : List Plane} {n : ℕ} (h : ps.length ≤ n) (dim : ℕ) :
    coeffAt ps n dim = 0 := by
  unfold coeffAt
  rw [List.getD_eq_getElem?_getD, List.getElem?_eq_none h]
  rfl

theorem swapScanGo_pos (row dim : ℕ) (ps : List Plane) (ns : List ℕ)
    (hrow : ∀ n ∈ ns, row < n)
    (hsw : (swapScanGo row dim ps ns).2 = true) :
    0 < coeffAt (swapScanGo row dim ps ns).1 row dim := by
  induction ns generalizing ps with
  | nil => simp [swapScanGo] at hsw
  | cons n rest ih =>
    by_cases hn : 0 < coeffAt ps n dim
    · have hlt : row < n := hrow n (by simp)
      have hnlen : n < ps.length := by
        by_contra hge
        push_neg at hge
        rw [coeffAt_oob hge] at hn
        exact lt_irrefl 0 hn
      have hps1 : coeffAt (swapRows ps row n) row dim = coeffAt ps n dim := by
        unfold swapRows coeffAt
        rw [getD_set_ne (Ne.symm (Nat.ne_of_lt hlt)),
          getD_set_self (Nat.lt_trans hlt hnlen)]
      simp only [swapScanGo, if_pos hn]
      cases hsw2 : (swapScanGo row dim (swapRows ps row n) rest).2 with
      | true => exact ih (swapRows ps row n) (fun m hm => hrow m (by simp [hm])) hsw2
      | false =>
        rw [swapScanGo_false_fst row dim _ rest hsw2, hps1]
        exact hn
    · simp only [swapScanGo, if_neg hn] at hsw ⊢
      exact ih ps (fun m hm => hrow m (by simp [hm])) hsw

/-- C3 counterexample: at cursor 0 of row 0, the coefficient is zero and
row 1 (inside the scan range, which excludes the last row) has the nonzero
coefficient `-1`, yet the swap search performs no swap — the source only
swaps on strictly positive coefficients — and the loop advances the cursor
instead of retrying with a swapped row. -/
theorem c3_counterexample :
    coeffAt [⟨[0, 1, 0], 0⟩, ⟨[-1, 0, 0], 0⟩, ⟨[0, 0, 1], 1⟩] 1 0 ≠ 0 ∧
    (1 : ℕ) ∈ List.range' (0 + 1) (3 - 1 - (0 + 1)) ∧
    coeffAt [⟨[0, 1, 0], 0⟩, ⟨[-1, 0, 0], 0⟩, ⟨[0, 0, 1], 1⟩] 0 0 = 0 ∧
    swapScan [⟨[0, 1, 0], 0⟩, ⟨[-1, 0, 0], 0⟩, ⟨[0, 0, 1], 1⟩] 0 0 3 =
      ([⟨[0, 1, 0], 0⟩, ⟨[-1, 0, 0], 0⟩, ⟨[0, 0, 1], 1⟩], false) ∧
    triWhile 3 3 (triFuel 3) [⟨[0, 1, 0], 0⟩, ⟨[-1, 0, 0], 0⟩, ⟨[0, 0, 1], 1⟩] 0 0 =
      triWhile 3 3 (triFuel 3 - 1) [⟨[0, 1, 0], 0⟩, ⟨[-1, 0, 0], 0⟩, ⟨[0, 0, 1], 1⟩] 0 1 := by
  with_unfolding_all decide

/-- C3 (amended): during forward elimination, when the coefficient at
`(row, cursor)` is zero the algorithm scans the rows strictly below `row`
(excluding the last row); if any of them has a *strictly positive*
coefficient at the cursor, it swaps such rows into position `row` (one
after another, ending with a positive coefficient there) and retries the
same cursor; if none has a positive coefficient it advances the cursor and
retries the same row. -/
theorem c3_swap_search (ps : List Plane) (row dim rows dims fuel : ℕ)
    (hdim : dim < dims) (hc : coeffAt ps row dim = 0) :
    ((∃ n, row + 1 ≤ n ∧ n + 1 < rows ∧ 0 < coeffAt ps n dim) →
        (swapScan ps row dim rows).2 = true ∧
        0 < coeffAt (swapScan ps row dim rows).1 row dim ∧
        triWhile rows dims (fuel + 1) ps row dim =
          triWhile rows dims fuel (swapScan ps row dim rows).1 row dim)
  ∧ ((∀ n, row + 1 ≤ n → n + 1 < rows → ¬ 0 < coeffAt ps n dim) →
        swapScan ps row dim rows = (ps, false) ∧
        triWhile rows dims (fuel + 1) ps row dim =
          triWhile rows dims fuel ps row (dim + 1)) := by
  constructor
  · rintro ⟨n, h1, h2, hpos⟩
    have hmem : n ∈ List.range' (row + 1) (rows - 1 - (row + 1)) := by
      rw [List.mem_range'_1]
      omega
    have htrue : (swapScan ps row dim rows).2 = true :=
      swapScanGo_swap row dim ps _ ⟨n, hmem, hpos⟩
    have hpos2 : 0 < coeffAt (swapScan ps row dim rows).1 row dim := by
      apply swapScanGo_pos row dim ps _ _ htrue
      intro m hm
      have := List.mem_range'_1.mp hm
      omega
    refine ⟨htrue, hpos2, ?_⟩
    simp [triWhile, hdim, hc, htrue]
  · intro hnone
    have heq : swapScan ps row dim rows = (ps, false) := by
      apply swapScanGo_no_swap
      intro m hm
      have := List.mem_range'_1.mp hm
      exact hnone m (by omega) (by omega)
    refine ⟨heq, ?_⟩
    have hfalse : (swapScan ps row dim rows).2 = false := by rw [heq]
    simp [triWhile, hdim, hc, hfalse]

/-- Witness for C3 (amended): a concrete state with a positive coefficient
below gets swapped and retried at the same cursor; a concrete state with
only a negative coefficient below advances the cursor with no swap. -/
theorem c3_swap_search_witness :
    ((swapScan [⟨[0, 1], 0⟩, ⟨[2, 0], 0⟩, ⟨[0, 0], 1⟩] 0 0 3).2 = true ∧
      0 < coeffAt (swapScan [⟨[0, 1], 0⟩, ⟨[2, 0], 0⟩, ⟨[0, 0], 1⟩] 0 0 3).1 0 0 ∧
      triWhile 3 2 8 [⟨[0, 1], 0⟩, ⟨[2, 0], 0⟩, ⟨[0, 0], 1⟩] 0 0 =
        triWhile 3 2 7 (swapScan [⟨[0, 1], 0⟩, ⟨[2, 0], 0⟩, ⟨[0, 0], 1⟩] 0 0 3).1 0 0) ∧
    (swapScan [⟨[0, 1], 0⟩, ⟨[-2, 0], 0⟩, ⟨[0, 0], 1⟩] 0 0 3 =
        ([⟨[0, 1], 0⟩, ⟨[-2, 0], 0⟩, ⟨[0, 0], 1⟩], false) ∧
      triWhile 3 2 8 [⟨[0, 1], 0⟩, ⟨[-2, 0], 0⟩, ⟨[0, 0], 1⟩] 0 0 =
        triWhile 3 2 7 [⟨[0, 1], 0⟩, ⟨[-2, 0], 0⟩, ⟨[0, 0], 1⟩] 0 1) := by
  constructor
  · exact (c3_swap_search [⟨[0, 1], 0⟩, ⟨[2, 0], 0⟩, ⟨[0, 0], 1⟩] 0 0 3 2 7
      (by decide) (by with_unfolding_all decide)).1
      ⟨1, by decide, by decide, by with_unfolding_all decide⟩
  · exact (c3_swap_search [⟨[0, 1], 0⟩, ⟨[-2, 0], 0⟩, ⟨[0, 0], 1⟩] 0 0 3 2 7
      (by decide) (by with_unfolding_all decide)).2
      (by
        intro n h1 h2
        have hn : n = 1 := by omega
        subst hn
        with_unfolding_all decide)

/-! ## Termination (C9) -/

theorem triWhile_isSome (rows dims : ℕ) :
    ∀ fuel ps row dim, 2 * (dims - dim) + 2 ≤ fuel →
      (triWhile rows dims fuel ps row dim).isSome := by
  intro fuel
  induction fuel using Nat.strong_induction_on with
  | _ fuel ih =>
    intro ps row dim hfuel
    cases fuel with
    | zero => omega
    | succ f =>
      by_cases hdim : dim < dims
      · by_cases hc : coeffAt ps row dim = 0
        · cases hsw : (swapScan ps row dim rows).2 with
          | false =>
            have heq : triWhile rows dims (f + 1) ps row dim =
                triWhile rows dims f ps row (dim + 1) := by
              simp [triWhile, hdim, hc, hsw]
            rw [heq]
            exact ih f (by omega) ps row (dim + 1) (by omega)
          | true =>
            have heq : triWhile rows dims (f + 1) ps row dim =
                triWhile rows dims f (swapScan ps row dim rows).1 row dim := by
              simp [triWhile, hdim, hc, hsw]
            rw [heq]
            have hpos : 0 < coeffAt (swapScan ps row dim rows).1 row dim := by
              apply swapScanGo_pos row dim ps _ _ hsw
              intro m hm
              have := List.mem_range'_1.mp hm
              omega
            have hne : coeffAt (swapScan ps row dim rows).1 row dim ≠ 0 :=
              ne_of_gt hpos
            cases f with
            | zero => omega
            | succ f2 => simp [triWhile, hdim, hne]
        · simp [triWhile, hdim, hc]
      · simp [triWhile, hdim]

theorem triRowsGo_isSome (rows dims : ℕ) (rs : List ℕ) :
    ∀ ps dim, (triRowsGo rows dims rs ps dim).isSome := by
  induction rs with
  | nil =>
    intro ps dim
    simp [triRowsGo]
  | cons row rest ih =>
    intro ps dim
    have h := triWhile_isSome rows dims (triFuel dims) ps row dim
      (by unfold triFuel; omega)
    cases heq : triWhile rows dims (triFuel dims) ps row dim with
    | none => rw [heq] at h; simp at h
    | some pr =>
      obtain ⟨ps1, dim1⟩ := pr
      simp only [triRowsGo, heq]
      exact ih ps1 dim1

/-- C9: both reducers terminate on every system: the cursor loop's fuel
never runs out, because each iteration either advances the cursor, returns
(breaking to the next row), or swaps a strictly positive coefficient into
the pivot position so that the following iteration returns. -/
theorem c9_termination (s : LinearSystem) :
    (compute_triangular_formAux s).isSome ∧ (compute_rref_formAux s).isSome := by
  have h := triRowsGo_isSome s.planes.length s.dimension
    (List.range (s.planes.length - 1)) s.planes 0
  have h1 : (compute_triangular_formAux s).isSome := by
    unfold compute_triangular_formAux
    cases heq : triRowsGo s.planes.length s.dimension
        (List.range (s.planes.length - 1)) s.planes 0 with
    | none => rw [heq] at h; simp at h
    | some ps => simp [heq]
  refine ⟨h1, ?_⟩
  unfold compute_rref_formAux
  cases heq : compute_triangular_formAux s with
  | none => rw [heq] at h1; simp at h1
  | some t => simp [heq]

/-! ## Pivot-index and rounding facts (towards C8) -/

theorem pyRound3_zero : pyRound3 0 = 0 := by
  with_unfolding_all decide

theorem pyRound3_one : pyRound3 1 = 1 := by
  with_unfolding_all decide

theorem ne_zero_of_pyRound3_ne_zero {q : ℚ} (h : pyRound3 q ≠ 0) : q ≠ 0 := by
  intro hq
  rw [hq] at h
  exact h pyRound3_zero

theorem pivotIdx_lt_length {v : List ℚ} {k : ℕ} (h : pivotIdx v = some k) :
    k < v.length := by
  induction v generalizing k with
  | nil => exact absurd h (by simp [pivotIdx])
  | cons x xs ih =>
    by_cases hx : x ≠ 0
    · rw [pivotIdx, if_pos hx] at h
      cases h
      simp
    · rw [pivotIdx, if_neg hx] at h
      cases hpi : pivotIdx xs with
      | none => rw [hpi] at h; cases h
      | some k2 =>
        rw [hpi] at h
        cases h
        have := ih hpi
        simpa using this

theorem pivotIdx_nonzero {v : List ℚ} {k : ℕ} (h : pivotIdx v = some k) :
    v.getD k 0 ≠ 0 := by
  induction v generalizing k with
  | nil => exact absurd h (by simp [pivotIdx])
  | cons x xs ih =>
    by_cases hx : x ≠ 0
    · rw [pivotIdx, if_pos hx] at h
      cases h
      simpa using hx
    · rw [pivotIdx, if_neg hx] at h
      cases hpi : pivotIdx xs with
      | none => rw [hpi] at h; cases h
      | some k2 =>
        rw [hpi] at h
        cases h
        simpa using ih hpi

theorem pivotIdx_before {v : List ℚ} {k : ℕ} (h : pivotIdx v = some k) :
    ∀ i, i < k → v.getD i 0 = 0 := by
  induction v generalizing k with
  | nil => exact absurd h (by simp [pivotIdx])
  | cons x xs ih =>
    by_cases hx : x ≠ 0
    · rw [pivotIdx, if_pos hx] at h
      cases h
      intro i hi
      omega
    · rw [pivotIdx, if_neg hx] at h
      cases hpi : pivotIdx xs with
      | none => rw [hpi] at h; cases h
      | some k2 =>
        rw [hpi] at h
        cases h
        intro i hi
        cases i with
        | zero => simpa using hx
        | succ i2 => simpa using ih hpi i2 (by simp at hi; omega)

theorem pivotIdx_none_all_zero {v : List ℚ} (h : pivotIdx v = none) :
    ∀ i, v.getD i 0 = 0 := by
  induction v with
  | nil => intro i; simp
  | cons x xs ih =>
    by_cases hx : x ≠ 0
    · rw [pivotIdx, if_pos hx] at h
      cases h
    · rw [pivotIdx, if_neg hx] at h
      have hxs : pivotIdx xs = none := Option.map_eq_none.mp h
      intro i
      cases i with
      | zero => simpa using hx
      | succ i2 => simpa using ih hxs i2

theorem pivotIdx_le_of_nonzero {v : List ℚ} {i : ℕ} (h : v.getD i 0 ≠ 0) :
    ∃ k, pivotIdx v = some k ∧ k ≤ i := by
  induction v generalizing i with
  | nil => simp at h
  | cons x xs ih =>
    by_cases hx : x ≠ 0
    · exact ⟨0, by rw [pivotIdx, if_pos hx], by omega⟩
    · cases i with
      | zero => exact absurd (by simpa using h) hx
      | succ i2 =>
        obtain ⟨k, hk, hki⟩ := ih (by simpa using h)
        refine ⟨k + 1, ?_, by omega⟩
        rw [pivotIdx, if_neg hx, hk]
        rfl

/-! ## Plane algebra for the backward pass -/

theorem len_mul {p : Plane} {m : ℕ} (hp : p.normal_vector.length = m) (c : ℚ) :
    (p.mul c).normal_vector.length = m := by
  rw [Plane.length_mul]
  exact hp

theorem len_sub {p q : Plane} {m : ℕ} (hp : p.normal_vector.length = m)
    (hq : q.normal_vector.length = m) : (p.sub q).normal_vector.length = m := by
  rw [Plane.length_sub (by rw [hp, hq])]
  exact hp

theorem len_add {p q : Plane} {m : ℕ} (hp : p.normal_vector.length = m)
    (hq : q.normal_vector.length = m) : (p.add q).normal_vector.length = m := by
  rw [Plane.length_add (by rw [hp, hq])]
  exact hp

theorem coeff_sub' {p q : Plane} {m : ℕ} (hp : p.normal_vector.length = m)
    (hq : q.normal_vector.length = m) (i : ℕ) :
    (p.sub q).coeff i = p.coeff i - q.coeff i :=
  Plane.coeff_sub (by rw [hp, hq]) i

theorem coeff_add' {p q : Plane} {m : ℕ} (hp : p.normal_vector.length = m)
    (hq : q.normal_vector.length = m) (i : ℕ) :
    (p.add q).coeff i = p.coeff i + q.coeff i :=
  Plane.coeff_add (by rw [hp, hq]) i

theorem Plane.mul_one_eq (p : Plane) : p.mul 1 = p := by
  apply Plane.ext_pointwise (Plane.length_mul p 1)
  · intro i
    rw [Plane.coeff_mul]
    exact mul_one _
  · rw [Plane.const_mul]
    exact mul_one _

theorem Plane.mul_mul (p : Plane) (a b : ℚ) : (p.mul a).mul b = p.mul (a * b) := by
  apply Plane.ext_pointwise (by rw [Plane.length_mul, Plane.length_mul, Plane.length_mul])
  · intro i
    rw [Plane.coeff_mul, Plane.coeff_mul, Plane.coeff_mul, mul_assoc]
  · rw [Plane.const_mul, Plane.const_mul, Plane.const_mul, mul_assoc]

theorem Plane.sub_mul_zero {r p : Plane} {m : ℕ} (hr : r.normal_vector.length = m)
    (hp : p.normal_vector.length = m) : r.sub (p.mul 0) = r := by
  apply Plane.ext_pointwise (by rw [len_sub hr (len_mul hp 0), hr])
  · intro i
    rw [coeff_sub' hr (len_mul hp 0), Plane.coeff_mul, mul_zero, sub_zero]
  · rw [Plane.const_sub, Plane.const_mul, mul_zero, sub_zero]

theorem Plane.sub_sub_comm {x y z : Plane} {m : ℕ} (hx : x.normal_vector.length = m)
    (hy : y.normal_vector.length = m) (hz : z.normal_vector.length = m) :
    (x.sub y).sub z = (x.sub z).sub y := by
  apply Plane.ext_pointwise
  · rw [len_sub (len_sub hx hy) hz, len_sub (len_sub hx hz) hy]
  · intro i
    rw [coeff_sub' (len_sub hx hy) hz, coeff_sub' (len_sub hx hz) hy,
      coeff_sub' hx hy, coeff_sub' hx hz]
    ring
  · simp only [Plane.const_sub]
    ring

theorem Plane.sub_mul_dist {r p : Plane} {m : ℕ} (hr : r.normal_vector.length = m)
    (hp : p.normal_vector.length = m) (c q : ℚ) :
    r.sub (p.mul (c + q)) = (r.sub (p.mul c)).sub (p.mul q) := by
  apply Plane.ext_pointwise
  · rw [len_sub hr (len_mul hp (c + q)), len_sub (len_sub hr (len_mul hp c)) (len_mul hp q)]
  · intro i
    rw [coeff_sub' hr (len_mul hp (c + q)),
      coeff_sub' (len_sub hr (len_mul hp c)) (len_mul hp q),
      coeff_sub' hr (len_mul hp c), Plane.coeff_mul, Plane.coeff_mul, Plane.coeff_mul]
    ring
  · simp only [Plane.const_sub, Plane.const_mul]
    ring

theorem posneg_step {r1 u : Plane} {m : ℕ} (hr : r1.normal_vector.length = m)
    (hu : u.normal_vector.length = m) (c w : ℚ) :
    (if c < 0 then r1.add (u.mul (|c| / w)) else r1.sub (u.mul (|c| / w)))
      = r1.sub (u.mul (c / w)) := by
  by_cases hc : c < 0
  · rw [if_pos hc]
    apply Plane.ext_pointwise
    · rw [len_add hr (len_mul hu _), len_sub hr (len_mul hu _)]
    · intro i
      rw [coeff_add' hr (len_mul hu _), coeff_sub' hr (len_mul hu _),
        Plane.coeff_mul, Plane.coeff_mul, abs_of_neg hc]
      ring
    · rw [Plane.const_add, Plane.const_sub, Plane.const_mul, Plane.const_mul,
        abs_of_neg hc]
      ring
  · rw [if_neg hc, abs_of_nonneg (le_of_not_lt hc)]

/-! ## Combination lemmas -/

theorem comboSub_length {m : ℕ} (r : Plane) (P : List Plane) (A : List ℚ)
    (hr : r.normal_vector.length = m) (hP : ∀ p ∈ P, p.normal_vector.length = m) :
    (comboSub r P A).normal_vector.length = m := by
  induction P generalizing r A with
  | nil => cases A <;> simpa [comboSub]
  | cons p ps ih =>
    cases A with
    | nil => simpa [comboSub]
    | cons c cs =>
      rw [comboSub]
      exact ih (r.sub (p.mul c)) cs (len_sub hr (len_mul (hP p (by simp)) c))
        (fun q hq => hP q (by simp [hq]))

theorem coeff_comboSub {m : ℕ} (r : Plane) (P : List Plane) (A : List ℚ)
    (hr : r.normal_vector.length = m) (hP : ∀ p ∈ P, p.normal_vector.length = m)
    (q : ℕ) :
    (comboSub r P A).coeff q = r.coeff q - dotCol P A q := by
  induction P generalizing r A with
  | nil => cases A <;> simp [comboSub, dotCol]
  | cons p ps ih =>
    cases A with
    | nil => simp [comboSub, dotCol]
    | cons c cs =>
      rw [comboSub, dotCol]
      rw [ih (r.sub (p.mul c)) cs (len_sub hr (len_mul (hP p (by simp)) c))
        (fun q2 hq2 => hP q2 (by simp [hq2]))]
      rw [coeff_sub' hr (len_mul (hP p (by simp)) c), Plane.coeff_mul]
      ring

theorem comboSub_zero {m : ℕ} (r : Plane) (P : List Plane) (A : List ℚ)
    (hr : r.normal_vector.length = m) (hP : ∀ p ∈ P, p.normal_vector.length = m)
    (hA : ∀ u, u < P.length → A.getD u 0 = 0) :
    comboSub r P A = r := by
  induction P generalizing r A with
  | nil => cases A <;> rfl
  | cons p ps ih =>
    cases A with
    | nil => rfl
    | cons c cs =>
      have hc : c = 0 := by simpa using hA 0 (by simp)
      rw [comboSub, hc, Plane.sub_mul_zero hr (hP p (by simp))]
      exact ih r cs hr (fun q hq => hP q (by simp [hq]))
        (fun u hu => by simpa using hA (u + 1) (by simpa using hu))

theorem comboSub_sub_out {m : ℕ} (x y : Plane) (P : List Plane) (A : List ℚ)
    (hx : x.normal_vector.length = m) (hy : y.normal_vector.length = m)
    (hP : ∀ p ∈ P, p.normal_vector.length = m) :
    comboSub (x.sub y) P A = (comboSub x P A).sub y := by
  induction P generalizing x A with
  | nil => cases A <;> rfl
  | cons p ps ih =>
    cases A with
    | nil => rfl
    | cons c cs =>
      rw [comboSub, comboSub, Plane.sub_sub_comm hx hy (len_mul (hP p (by simp)) c)]
      exact ih (x.sub (p.mul c)) cs (len_sub hx (len_mul (hP p (by simp)) c))
        (fun q hq => hP q (by simp [hq]))

theorem comboSub_set {m : ℕ} (r : Plane) (P : List Plane) (A : List ℚ) (j : ℕ) (q : ℚ)
    (hr : r.normal_vector.length = m) (hP : ∀ p ∈ P, p.normal_vector.length = m)
    (hj : j < P.length) (hA : A.length = P.length) :
    comboSub r P (A.set j (A.getD j 0 + q)) =
      (comboSub r P A).sub ((P.getD j default).mul q) := by
  induction P generalizing r A j with
  | nil => simp at hj
  | cons p ps ih =>
    cases A with
    | nil => simp at hA
    | cons c cs =>
      cases j with
      | zero =>
        have hset : (c :: cs).set 0 ((c :: cs).getD 0 0 + q) = (c + q) :: cs := by
          simp [List.set]
        rw [hset, comboSub, comboSub,
          Plane.sub_mul_dist hr (hP p (by simp)) c q,
          comboSub_sub_out (m := m) (r.sub (p.mul c)) (p.mul q) ps cs
            (len_sub hr (len_mul (hP p (by simp)) c))
            (len_mul (hP p (by simp)) q)
            (fun q2 hq2 => hP q2 (by simp [hq2]))]
        rfl
      | succ j2 =>
        have hset : (c :: cs).set (j2 + 1) ((c :: cs).getD (j2 + 1) 0 + q) =
            c :: cs.set j2 (cs.getD j2 0 + q) := by
          simp [List.set]
        rw [hset, comboSub, comboSub]
        rw [ih (r.sub (p.mul c)) cs j2 (len_sub hr (len_mul (hP p (by simp)) c))
          (fun q2 hq2 => hP q2 (by simp [hq2])) (by simpa using hj)
          (by simpa using hA)]
        rfl

theorem dotCol_zero (P : List Plane) (A : List ℚ) (q : ℕ)
    (h : ∀ u, u < P.length → A.getD u 0 * (P.getD u default).coeff q = 0) :
    dotCol P A q = 0 := by
  induction P generalizing A with
  | nil => cases A <;> rfl
  | cons p ps ih =>
    cases A with
    | nil => rfl
    | cons c cs =>
      rw [dotCol]
      have h0 : c * p.coeff q = 0 := by simpa using h 0 (by simp)
      rw [h0, zero_add]
      exact ih cs (fun u hu => by simpa using h (u + 1) (by simpa using hu))

theorem dotCol_single (P : List Plane) (A : List ℚ) (q j : ℕ) (hj : j < P.length)
    (h : ∀ u, u < P.length → u ≠ j → A.getD u 0 * (P.getD u default).coeff q = 0) :
    dotCol P A q = A.getD j 0 * (P.getD j default).coeff q := by
  induction P generalizing A j with
  | nil => simp at hj
  | cons p ps ih =>
    cases A with
    | nil =>
      simp only [dotCol, List.getD]
      simp
    | cons c cs =>
      cases j with
      | zero =>
        rw [dotCol]
        have hrest : dotCol ps cs q = 0 :=
          dotCol_zero ps cs q
            (fun u hu => by simpa using h (u + 1) (by simpa using hu) (by omega))
        rw [hrest, add_zero]
        rfl
      | succ j2 =>
        rw [dotCol]
        have h0 : c * p.coeff q = 0 := by simpa using h 0 (by simp) (by omega)
        rw [h0, zero_add]
        exact ih cs j2 (by simpa using hj)
          (fun u hu hne => by
            simpa using h (u + 1) (by simpa using hu) (by omega))

/-! ## Under-scan lemmas (backward clearing pass) -/

theorem coeffAt_set_ne {ps : List Plane} {row u : ℕ} (h : row ≠ u) (x : Plane) (d : ℕ) :
    coeffAt (ps.set row x) u d = coeffAt ps u d := by
  unfold coeffAt
  rw [getD_set_ne h]

theorem coeffAt_set_self {ps : List Plane} {row : ℕ} (h : row < ps.length)
    (x : Plane) (d : ℕ) : coeffAt (ps.set row x) row d = x.coeff d := by
  unfold coeffAt
  rw [getD_set_self h]

theorem underScanGo_cons (cf : ℚ) (row d idx : ℕ) (rest : List ℕ) (ps : List Plane) :
    underScanGo cf row d ps (idx :: rest) =
      underScanGo cf row d
        (if pyRound3 (coeffAt ps (idx + 1) d) ≠ 0 then
          ps.set row
            (if cf < 0 then
              (ps.getD row default).add
                ((ps.getD (idx + 1) default).mul (|cf| / pyRound3 (coeffAt ps (idx + 1) d)))
             else
              (ps.getD row default).sub
                ((ps.getD (idx + 1) default).mul (|cf| / pyRound3 (coeffAt ps (idx + 1) d))))
         else ps) rest := rfl

theorem underScanGo_skip (cf : ℚ) (row d : ℕ) (ps : List Plane) (us : List ℕ)
    (h : ∀ idx ∈ us, pyRound3 (coeffAt ps (idx + 1) d) = 0) :
    underScanGo cf row d ps us = ps := by
  induction us with
  | nil => rfl
  | cons idx rest ih =>
    rw [underScanGo_cons, if_neg (by simpa using h idx (by simp))]
    exact ih (fun idx2 h2 => h idx2 (by simp [h2]))

theorem underScanGo_pivot (cf : ℚ) (L : List Plane) (row d j : ℕ) (us : List ℕ)
    (r1 : Plane)
    (hrow : row < L.length)
    (hbelow : ∀ idx ∈ us, row < idx + 1)
    (hzero : ∀ idx ∈ us, idx + 1 ≠ j → pyRound3 (coeffAt L (idx + 1) d) = 0)
    (hnodup : us.Nodup)
    (hnz : pyRound3 (coeffAt L j d) ≠ 0)
    (hj : ∃ idx ∈ us, idx + 1 = j) :
    underScanGo cf row d (L.set row r1) us =
      L.set row
        (if cf < 0 then
          r1.add ((L.getD j default).mul (|cf| / pyRound3 (coeffAt L j d)))
         else
          r1.sub ((L.getD j default).mul (|cf| / pyRound3 (coeffAt L j d)))) := by
  induction us generalizing r1 with
  | nil => simp at hj
  | cons idx rest ih =>
    have hrne : row ≠ idx + 1 := Nat.ne_of_lt (hbelow idx (by simp))
    rw [underScanGo_cons, coeffAt_set_ne hrne]
    by_cases hij : idx + 1 = j
    · have hrnej : row ≠ j := by rw [← hij]; exact hrne
      rw [hij, if_pos hnz, getD_set_self hrow, getD_set_ne hrnej, List.set_set]
      apply underScanGo_skip
      intro idx2 h2
      have hne2 : idx2 + 1 ≠ j := by
        rw [← hij]
        have : idx2 ≠ idx := by
          intro hcontra
          subst hcontra
          exact (List.nodup_cons.mp hnodup).1 h2
        omega
      rw [coeffAt_set_ne (Nat.ne_of_lt (hbelow idx2 (by simp [h2])))]
      exact hzero idx2 (by simp [h2]) hne2
    · rw [if_neg (by simpa using hzero idx (by simp) hij)]
      apply ih
      · exact fun idx2 h2 => hbelow idx2 (by simp [h2])
      · exact fun idx2 h2 => hzero idx2 (by simp [h2])
      · exact (List.nodup_cons.mp hnodup).2
      · obtain ⟨idx0, hmem, heq⟩ := hj
        rcases List.mem_cons.mp hmem with rfl | hmem2
        · exact absurd heq hij
        · exact ⟨idx0, hmem2, heq⟩

theorem underScanGo_free (cf : ℚ) (L : List Plane) (row d n : ℕ) (us : List ℕ)
    (A : List ℚ)
    (hwf : ∀ p ∈ L, p.normal_vector.length = n)
    (hrow : row < L.length)
    (hbelow : ∀ idx ∈ us, row < idx + 1 ∧ idx + 1 < L.length)
    (hnp : ∀ idx ∈ us, ¬ pivAt L (idx + 1) = some d)
    (hA : A.length = L.length)
    (hsupp : ∀ u, u < L.length → A.getD u 0 ≠ 0 →
        row < u ∧ ∃ p, pivAt L u = some p ∧ p < d) :
    ∃ A2 : List ℚ, A2.length = L.length ∧
      (∀ u, u < L.length → A2.getD u 0 ≠ 0 →
        row < u ∧ ∃ p, pivAt L u = some p ∧ p < d) ∧
      underScanGo cf row d (L.set row (comboSub (L.getD row default) L A)) us =
        L.set row (comboSub (L.getD row default) L A2) := by
  induction us generalizing A with
  | nil => exact ⟨A, hA, hsupp, rfl⟩
  | cons idx rest ih =>
    have hb := hbelow idx (by simp)
    have hrne : row ≠ idx + 1 := Nat.ne_of_lt hb.1
    have hrlen : (L.getD row default).normal_vector.length = n :=
      hwf _ (getD_mem hrow default)
    rw [underScanGo_cons, coeffAt_set_ne hrne]
    by_cases hz : pyRound3 (coeffAt L (idx + 1) d) ≠ 0
    · rw [if_pos hz, getD_set_self hrow, getD_set_ne hrne, List.set_set]
      rw [posneg_step (comboSub_length (L.getD row default) L A hrlen hwf)
        (hwf _ (getD_mem hb.2 default)) cf (pyRound3 (coeffAt L (idx + 1) d))]
      rw [← comboSub_set (m := n) (L.getD row default) L A (idx + 1)
        (cf / pyRound3 (coeffAt L (idx + 1) d)) hrlen hwf hb.2 hA]
      have hcoeff : coeffAt L (idx + 1) d ≠ 0 := ne_zero_of_pyRound3_ne_zero hz
      obtain ⟨k, hk, hkd⟩ :=
        pivotIdx_le_of_nonzero (v := (L.getD (idx + 1) default).normal_vector)
          (i := d) hcoeff
      have hklt : k < d := by
        rcases Nat.lt_or_ge k d with h1 | h1
        · exact h1
        · exfalso
          have : k = d := by omega
          exact hnp idx (by simp) (by rw [pivAt, hk, this])
      obtain ⟨A2, hA2len, hA2supp, hA2eq⟩ := ih
        (A.set (idx + 1) (A.getD (idx + 1) 0 + cf / pyRound3 (coeffAt L (idx + 1) d)))
        (fun idx2 h2 => hbelow idx2 (by simp [h2]))
        (fun idx2 h2 => hnp idx2 (by simp [h2]))
        (by rw [List.length_set]; exact hA)
        (by
          intro u hu hne
          by_cases huidx : u = idx + 1
          · subst huidx
            exact ⟨hb.1, k, by rw [pivAt, hk], hklt⟩
          · rw [getD_set_ne (fun he => huidx he.symm)] at hne
            exact hsupp u hu hne)
      exact ⟨A2, hA2len, hA2supp, hA2eq⟩
    · rw [if_neg hz]
      exact ih A (fun idx2 h2 => hbelow idx2 (by simp [h2]))
        (fun idx2 h2 => hnp idx2 (by simp [h2])) hA hsupp

/-! ## Backward clearing pass: identity on RREF systems -/

theorem rrefRowPass_succ (row rows : ℕ) (ps : List Plane) (k : ℕ) :
    rrefRowPass row rows ps (k + 1) =
      rrefRowPass row rows
        (if coeffAt ps row k ≠ 0 then underScan (coeffAt ps row k) ps row k rows
         else ps) k := rfl

theorem pivot_unique {L : List Plane}
    (mono : ∀ i, i < L.length → ∀ j, j < L.length → i < j →
      (pivAt L i).isSome → (pivAt L j).isSome →
      (pivAt L i).getD 0 < (pivAt L j).getD 0)
    {u j k : ℕ} (hu : u < L.length) (hj : j < L.length)
    (hup : pivAt L u = some k) (hjp : pivAt L j = some k) : u = j := by
  rcases Nat.lt_trichotomy u j with h | h | h
  · have := mono u hu j hj h (by rw [hup]; rfl) (by rw [hjp]; rfl)
    rw [hup, hjp] at this
    simp at this
  · exact h
  · have := mono j hj u hu h (by rw [hjp]; rfl) (by rw [hup]; rfl)
    rw [hup, hjp] at this
    simp at this

theorem rrefRowPass_comb (L : List Plane) (n row : ℕ)
    (hwf : ∀ p ∈ L, p.normal_vector.length = n)
    (hrow : row < L.length)
    (mono : ∀ i, i < L.length → ∀ j, j < L.length → i < j →
      (pivAt L i).isSome → (pivAt L j).isSome →
      (pivAt L i).getD 0 < (pivAt L j).getD 0)
    (pone : ∀ i, i < L.length → (pivAt L i).isSome →
      coeffAt L i ((pivAt L i).getD 0) = 1)
    (pcol : ∀ i, i < L.length → ∀ j, j < L.length → i ≠ j →
      (pivAt L j).isSome → coeffAt L i ((pivAt L j).getD 0) = 0) :
    ∀ k A, A.length = L.length →
      (∀ u, u < L.length → A.getD u 0 ≠ 0 →
        row < u ∧ ∃ p, pivAt L u = some p ∧ p < k) →
      rrefRowPass row L.length (L.set row (comboSub (L.getD row default) L A)) k
        = L := by
  have hrlen : (L.getD row default).normal_vector.length = n :=
    hwf _ (getD_mem hrow default)
  intro k
  induction k with
  | zero =>
    intro A hA hsupp
    have hz : comboSub (L.getD row default) L A = L.getD row default :=
      comboSub_zero (m := n) _ _ _ hrlen hwf
        (fun u hu => by
          by_contra hne
          obtain ⟨-, p, -, hp⟩ := hsupp u hu hne
          omega)
    rw [hz, set_getD_self default hrow]
    rfl
  | succ k ih =>
    intro A hA hsupp
    rw [rrefRowPass_succ]
    rw [coeffAt_set_self hrow]
    by_cases hex : ∃ j, row < j ∧ j < L.length ∧ pivAt L j = some k
    · obtain ⟨j, hjr, hjm, hjp⟩ := hex
      have hjs : (pivAt L j).isSome := by rw [hjp]; rfl
      have hjd : (pivAt L j).getD 0 = k := by rw [hjp]; rfl
      have hr0 : (L.getD row default).coeff k = 0 := by
        have := pcol row hrow j hjm (Nat.ne_of_lt hjr) hjs
        rw [hjd] at this
        exact this
      have hj1 : (L.getD j default).coeff k = 1 := by
        have := pone j hjm hjs
        rw [hjd] at this
        exact this
      have hdot : dotCol L A k = A.getD j 0 * (L.getD j default).coeff k := by
        apply dotCol_single L A k j hjm
        intro u hu hne
        by_cases hAu : A.getD u 0 = 0
        · rw [hAu, zero_mul]
        · have := pcol u hu j hjm hne hjs
          rw [hjd] at this
          rw [show (L.getD u default).coeff k = coeffAt L u k from rfl, this, mul_zero]
      have hcoeff : (comboSub (L.getD row default) L A).coeff k = -(A.getD j 0) := by
        rw [coeff_comboSub (m := n) _ _ _ hrlen hwf, hdot, hj1, hr0]
        ring
      by_cases hAj : A.getD j 0 = 0
      · rw [hcoeff, hAj]
        rw [if_neg (by simp)]
        apply ih A hA
        intro u hu hne
        obtain ⟨h1, p, hp, hplt⟩ := hsupp u hu hne
        refine ⟨h1, p, hp, ?_⟩
        rcases Nat.lt_or_ge p k with h2 | h2
        · exact h2
        · exfalso
          have hpk : p = k := by omega
          subst hpk
          have := pivot_unique mono hu hjm hp hjp
          subst this
          exact hne hAj
      · have hcne : (comboSub (L.getD row default) L A).coeff k ≠ 0 := by
          rw [hcoeff]
          simpa using hAj
        rw [if_pos hcne]
        have hscan : underScan ((comboSub (L.getD row default) L A).coeff k)
            (L.set row (comboSub (L.getD row default) L A)) row k L.length =
            L.set row (comboSub (L.getD row default) L
              (A.set j (A.getD j 0 + (comboSub (L.getD row default) L A).coeff k))) := by
          unfold underScan
          rw [underScanGo_pivot ((comboSub (L.getD row default) L A).coeff k) L row k j
            (List.range' row (L.length - 1 - row)) (comboSub (L.getD row default) L A)
            hrow
            (fun idx hidx => by
              have := List.mem_range'_1.mp hidx
              omega)
            (fun idx hidx hne => by
              have hb := List.mem_range'_1.mp hidx
              have hu : idx + 1 < L.length := by omega
              have := pcol (idx + 1) hu j hjm hne hjs
              rw [hjd] at this
              rw [show coeffAt L (idx + 1) k = (L.getD (idx + 1) default).coeff k from rfl] at this
              rw [show coeffAt L (idx + 1) k = (L.getD (idx + 1) default).coeff k from rfl, this]
              exact pyRound3_zero)
            (List.nodup_range' row (L.length - 1 - row))
            (by
              rw [show coeffAt L j k = (L.getD j default).coeff k from rfl, hj1, pyRound3_one]
              norm_num)
            ⟨j - 1, by rw [List.mem_range'_1]; omega, by omega⟩]
          rw [show coeffAt L j k = (L.getD j default).coeff k from rfl, hj1, pyRound3_one]
          rw [posneg_step (comboSub_length _ _ _ hrlen hwf) (hwf _ (getD_mem hjm default))]
          rw [div_one]
          rw [← comboSub_set (m := n) _ _ _ _ _ hrlen hwf hjm hA]
        rw [hscan]
        have hset0 : A.set j (A.getD j 0 + (comboSub (L.getD row default) L A).coeff k)
            = A.set j 0 := by
          rw [hcoeff]
          ring_nf
        rw [hset0]
        apply ih (A.set j 0) (by rw [List.length_set]; exact hA)
        intro u hu hne
        by_cases huj : u = j
        · subst huj
          rw [getD_set_self (by rw [hA]; exact hjm)] at hne
          exact absurd rfl hne
        · rw [getD_set_ne (fun he => huj he.symm)] at hne
          obtain ⟨h1, p, hp, hplt⟩ := hsupp u hu hne
          refine ⟨h1, p, hp, ?_⟩
          rcases Nat.lt_or_ge p k with h2 | h2
          · exact h2
          · exfalso
            have hpk : p = k := by omega
            subst hpk
            exact huj (pivot_unique mono hu hjm hp hjp)
    · have hsupp2 : ∀ u, u < L.length → A.getD u 0 ≠ 0 →
          row < u ∧ ∃ p, pivAt L u = some p ∧ p < k := by
        intro u hu hne
        obtain ⟨h1, p, hp, hplt⟩ := hsupp u hu hne
        refine ⟨h1, p, hp, ?_⟩
        rcases Nat.lt_or_ge p k with h2 | h2
        · exact h2
        · exfalso
          have hpk : p = k := by omega
          subst hpk
          exact hex ⟨u, h1, hu, hp⟩
      by_cases hc0 : (comboSub (L.getD row default) L A).coeff k = 0
      · rw [hc0, if_neg (by simp)]
        exact ih A hA hsupp2
      · rw [if_pos hc0]
        obtain ⟨A2, hA2len, hA2supp, hA2eq⟩ :=
          underScanGo_free ((comboSub (L.getD row default) L A).coeff k) L row k n
            (List.range' row (L.length - 1 - row)) A hwf hrow
            (fun idx hidx => by
              have := List.mem_range'_1.mp hidx
              constructor <;> omega)
            (fun idx hidx hcontra => by
              have := List.mem_range'_1.mp hidx
              exact hex ⟨idx + 1, by omega, by omega, hcontra⟩)
            hA hsupp2
        unfold underScan
        rw [hA2eq]
        exact ih A2 hA2len hA2supp

theorem rrefRowsGo_id (L : List Plane) (n : ℕ)
    (hwf : ∀ p ∈ L, p.normal_vector.length = n)
    (mono : ∀ i, i < L.length → ∀ j, j < L.length → i < j →
      (pivAt L i).isSome → (pivAt L j).isSome →
      (pivAt L i).getD 0 < (pivAt L j).getD 0)
    (pone : ∀ i, i < L.length → (pivAt L i).isSome →
      coeffAt L i ((pivAt L i).getD 0) = 1)
    (pcol : ∀ i, i < L.length → ∀ j, j < L.length → i ≠ j →
      (pivAt L j).isSome → coeffAt L i ((pivAt L j).getD 0) = 0) :
    ∀ rs, (∀ row ∈ rs, row < L.length) → rrefRowsGo L.length n rs L = L := by
  intro rs
  induction rs with
  | nil => intro _; rfl
  | cons row rest ih =>
    intro hmem
    have hrow : row < L.length := hmem row (by simp)
    have hpass : rrefRowPass row L.length L n = L := by
      have hz : comboSub (L.getD row default) L (List.replicate L.length 0) =
          L.getD row default :=
        comboSub_zero (m := n) _ _ _ (hwf _ (getD_mem hrow default)) hwf
          (fun u hu => by simp [List.getD_eq_getElem?_getD, List.getElem?_replicate, hu])
      have h0 := rrefRowPass_comb L n row hwf hrow mono pone pcol n
        (List.replicate L.length 0) (by simp)
        (fun u hu hne => by
          exfalso
          apply hne
          simp [List.getD_eq_getElem?_getD, List.getElem?_replicate, hu])
      rw [hz, set_getD_self default hrow] at h0
      exact h0
    show rrefRowsGo L.length n rest (rrefRowPass row L.length L n) = L
    rw [hpass]
    exact ih (fun r hr => hmem r (by simp [hr]))

/-! ## Forward elimination: identity on RREF systems -/

theorem clearBelowGo_cons (pivot : ℚ) (row d u : ℕ) (rest : List ℕ) (ps : List Plane) :
    clearBelowGo pivot row d ps (u :: rest) =
      clearBelowGo pivot row d
        (if coeffAt ps u d ≠ 0 then
          ps.set u ((ps.getD u default).add
            ((ps.getD row default).mul ((coeffAt ps u d / pivot) * (-1))))
         else ps) rest := rfl

theorem clearBelowGo_id (pivot : ℚ) (row d : ℕ) (ps : List Plane) (ns : List ℕ)
    (h : ∀ u ∈ ns, coeffAt ps u d = 0) : clearBelowGo pivot row d ps ns = ps := by
  induction ns with
  | nil => rfl
  | cons u rest ih =>
    rw [clearBelowGo_cons, if_neg (by simpa using h u (by simp))]
    exact ih (fun u2 h2 => h u2 (by simp [h2]))

theorem triWhile_succ (rows dims fuel : ℕ) (ps : List Plane) (row dim : ℕ) :
    triWhile rows dims (fuel + 1) ps row dim =
      if dim < dims then
        if coeffAt ps row dim = 0 then
          if (swapScan ps row dim rows).2 then
            triWhile rows dims fuel (swapScan ps row dim rows).1 row dim
          else triWhile rows dims fuel ps row (dim + 1)
        else some (clearBelow (coeffAt ps row dim) ps row dim rows, dim)
      else some (ps, dim) := rfl

theorem triWhile_climb_pivot (rows dims : ℕ) (L : List Plane) (row p : ℕ)
    (hrow : row < rows) (hp : p < dims)
    (hpz : coeffAt L row p ≠ 0)
    (hbelow : ∀ u, row + 1 ≤ u → u < rows → coeffAt L u p = 0)
    (hcols : ∀ c, c < p → ∀ u, row ≤ u → u < rows → coeffAt L u c = 0) :
    ∀ fuel d, d ≤ p → p - d + 1 ≤ fuel →
      triWhile rows dims fuel L row d = some (L, p) := by
  intro fuel
  induction fuel with
  | zero =>
    intro d h1 h2
    omega
  | succ f ih =>
    intro d hdp hfuel
    rw [triWhile_succ, if_pos (lt_of_le_of_lt hdp hp)]
    by_cases hde : d = p
    · subst hde
      rw [if_neg hpz]
      have hcb : clearBelow (coeffAt L row d) L row d rows = L := by
        unfold clearBelow
        apply clearBelowGo_id
        intro u hu
        have := List.mem_range'_1.mp hu
        exact hbelow u (by omega) (by omega)
      rw [hcb]
    · have hdlt : d < p := lt_of_le_of_ne hdp hde
      rw [if_pos (hcols d hdlt row le_rfl hrow)]
      have hsw : swapScan L row d rows = (L, false) := by
        unfold swapScan
        apply swapScanGo_no_swap
        intro u hu
        have := List.mem_range'_1.mp hu
        rw [hcols d hdlt u (by omega) (by omega)]
        simp
      rw [hsw]
      rw [if_neg (by simp)]
      exact ih (d + 1) (by omega) (by omega)

theorem triWhile_climb_none (rows dims : ℕ) (L : List Plane) (row : ℕ)
    (hrow : row < rows)
    (hall : ∀ c, c < dims → ∀ u, row ≤ u → u < rows → coeffAt L u c = 0) :
    ∀ fuel d, d ≤ dims → dims - d + 1 ≤ fuel →
      triWhile rows dims fuel L row d = some (L, dims) := by
  intro fuel
  induction fuel with
  | zero =>
    intro d h1 h2
    omega
  | succ f ih =>
    intro d hd hfuel
    rw [triWhile_succ]
    by_cases hde : d = dims
    · subst hde
      rw [if_neg (lt_irrefl _)]
    · have hdlt : d < dims := lt_of_le_of_ne hd hde
      rw [if_pos hdlt, if_pos (hall d hdlt row le_rfl hrow)]
      have hsw : swapScan L row d rows = (L, false) := by
        unfold swapScan
        apply swapScanGo_no_swap
        intro u hu
        have := List.mem_range'_1.mp hu
        rw [hall d hdlt u (by omega) (by omega)]
        simp
      rw [hsw]
      rw [if_neg (by simp)]
      exact ih (d + 1) (by omega) (by omega)

theorem triRowsGo_cons (rows dims : ℕ) (row : ℕ) (rest : List ℕ) (ps : List Plane)
    (dim : ℕ) :
    triRowsGo rows dims (row :: rest) ps dim =
      match triWhile rows dims (triFuel dims) ps row dim with
      | none => none
      | some (ps1, dim1) => triRowsGo rows dims rest ps1 dim1 := rfl

theorem triRowsGo_id (L : List Plane) (n : ℕ)
    (hwf : ∀ p ∈ L, p.normal_vector.length = n)
    (bottom : ∀ i, i < L.length → ∀ j, j < L.length → i < j →
      (pivAt L j).isSome → (pivAt L i).isSome)
    (mono : ∀ i, i < L.length → ∀ j, j < L.length → i < j →
      (pivAt L i).isSome → (pivAt L j).isSome →
      (pivAt L i).getD 0 < (pivAt L j).getD 0)
    (pcol : ∀ i, i < L.length → ∀ j, j < L.length → i ≠ j →
      (pivAt L j).isSome → coeffAt L i ((pivAt L j).getD 0) = 0) :
    ∀ len r0 d, L.length - 1 - r0 = len →
      (∀ t, r0 ≤ t → t < L.length → ∀ c, c < d → coeffAt L t c = 0) →
      d ≤ n →
      triRowsGo L.length n (List.range' r0 len) L d = some L := by
  intro len
  induction len with
  | zero =>
    intro r0 d _ _ _
    rfl
  | succ len2 ih =>
    intro r0 d hlen hzb hdn
    have hr0m : r0 < L.length := by omega
    rw [List.range'_succ, triRowsGo_cons]
    cases hpv : pivAt L r0 with
    | some p =>
      have hplen : p < n := by
        have hlt := pivotIdx_lt_length
          (v := (L.getD r0 default).normal_vector) (k := p) hpv
        rw [hwf _ (getD_mem hr0m default)] at hlt
        exact hlt
      have hpz : coeffAt L r0 p ≠ 0 :=
        pivotIdx_nonzero (v := (L.getD r0 default).normal_vector) hpv
      have hpvd : (pivAt L r0).getD 0 = p := by rw [hpv]; rfl
      have hpvs : (pivAt L r0).isSome := by rw [hpv]; rfl
      have hbelow : ∀ u, r0 + 1 ≤ u → u < L.length → coeffAt L u p = 0 := by
        intro u h1 h2
        have := pcol u h2 r0 hr0m (by omega) hpvs
        rwa [hpvd] at this
      have hcols : ∀ c, c < p → ∀ u, r0 ≤ u → u < L.length → coeffAt L u c = 0 := by
        intro c hc u h1 h2
        cases hpu : pivAt L u with
        | none =>
          exact pivotIdx_none_all_zero (v := (L.getD u default).normal_vector) hpu c
        | some pu =>
          have hple : p ≤ pu := by
            rcases Nat.eq_or_lt_of_le h1 with he | hlt2
            · rw [← he] at hpu
              rw [hpu] at hpv
              cases hpv
              exact le_rfl
            · have hm := mono r0 hr0m u h2 hlt2 hpvs (by rw [hpu]; rfl)
              rw [hpvd, show (pivAt L u).getD 0 = pu from by rw [hpu]; rfl] at hm
              omega
          exact pivotIdx_before (v := (L.getD u default).normal_vector) hpu c
            (by omega)
      have hdp : d ≤ p := by
        by_contra hcon
        push_neg at hcon
        exact hpz (hzb r0 le_rfl hr0m p hcon)
      have hw := triWhile_climb_pivot L.length n L r0 p hr0m hplen hpz hbelow hcols
        (triFuel n) d hdp (by unfold triFuel; omega)
      rw [hw]
      exact ih (r0 + 1) p (by omega)
        (fun t h1 h2 c hc => hcols c hc t (by omega) h2) (le_of_lt hplen)
    | none =>
      have hnone : ∀ t, r0 ≤ t → t < L.length → pivAt L t = none := by
        intro t h1 h2
        rcases Nat.eq_or_lt_of_le h1 with he | hlt2
        · rw [← he]
          exact hpv
        · by_contra hcon
          have hs : (pivAt L t).isSome := Option.ne_none_iff_isSome.mp hcon
          have := bottom r0 hr0m t h2 hlt2 hs
          rw [hpv] at this
          simp at this
      have hall : ∀ c, c < n → ∀ u, r0 ≤ u → u < L.length → coeffAt L u c = 0 := by
        intro c _ u h1 h2
        exact pivotIdx_none_all_zero (v := (L.getD u default).normal_vector)
          (hnone u h1 h2) c
      have hw := triWhile_climb_none L.length n L r0 hr0m hall (triFuel n) d hdn
        (by unfold triFuel; omega)
      rw [hw]
      exact ih (r0 + 1) n (by omega)
        (fun t h1 h2 c hc => hall c hc t (by omega) h2) le_rfl

theorem compute_triangular_formAux_rref (s : LinearSystem)
    (hwf : WF s)
    (bottom : ∀ i, i < s.planes.length → ∀ j, j < s.planes.length → i < j →
      (pivAt s.planes j).isSome → (pivAt s.planes i).isSome)
    (mono : ∀ i, i < s.planes.length → ∀ j, j < s.planes.length → i < j →
      (pivAt s.planes i).isSome → (pivAt s.planes j).isSome →
      (pivAt s.planes i).getD 0 < (pivAt s.planes j).getD 0)
    (pcol : ∀ i, i < s.planes.length → ∀ j, j < s.planes.length → i ≠ j →
      (pivAt s.planes j).isSome → coeffAt s.planes i ((pivAt s.planes j).getD 0) = 0) :
    compute_triangular_formAux s = some ⟨s.planes, s.dimension⟩ := by
  have h := triRowsGo_id s.planes s.dimension hwf bottom mono pcol
    (s.planes.length - 1) 0 0 (by omega) (fun t _ _ c hc => by omega)
    (Nat.zero_le _)
  rw [← List.range_eq_range'] at h
  simp only [compute_triangular_formAux]
  rw [h]

/-! ## Normalization pass: identity on RREF systems -/

theorem normPass_succ (row : ℕ) (ps : List Plane) (k : ℕ) :
    normPass row ps (k + 1) =
      normPass row
        (if coeffAt ps row k ≠ 0 then
          ps.set row ((ps.getD row default).mul (1 / coeffAt ps row k))
         else ps) k := rfl

theorem normPass_skip (row : ℕ) (ps : List Plane) :
    ∀ k, (∀ c, c < k → coeffAt ps row c = 0) → normPass row ps k = ps := by
  intro k
  induction k with
  | zero => intro _; rfl
  | succ k2 ih =>
    intro h
    rw [normPass_succ, if_neg (by simpa using h k2 (by omega))]
    exact ih (fun c hc => h c (by omega))

theorem normPass_scaled (L : List Plane) (row : ℕ) (hrow : row < L.length)
    (p : ℕ) (hpv : pivAt L row = some p) (hp1 : coeffAt L row p = 1) :
    ∀ k, p < k → ∀ lam, lam ≠ 0 →
      normPass row (L.set row ((L.getD row default).mul lam)) k = L := by
  intro k
  induction k with
  | zero =>
    intro h
    omega
  | succ k2 ih =>
    intro hpk lam hlam
    rw [normPass_succ, coeffAt_set_self hrow, Plane.coeff_mul, getD_set_self hrow,
      List.set_set, Plane.mul_mul]
    by_cases hk2 : k2 = p
    · subst hk2
      have hpc : (L.getD row default).coeff k2 = 1 := hp1
      rw [hpc, one_mul, if_pos hlam]
      have hfrac : lam * (1 / lam) = 1 := by
        field_simp
      rw [hfrac, Plane.mul_one_eq, set_getD_self default hrow]
      exact normPass_skip row L k2
        (fun c hc => pivotIdx_before (v := (L.getD row default).normal_vector) hpv c hc)
    · have hplt : p < k2 := by omega
      by_cases hrc : (L.getD row default).coeff k2 = 0
      · rw [hrc, zero_mul]
        rw [if_neg (by simp)]
        exact ih hplt lam hlam
      · rw [if_pos (mul_ne_zero hrc hlam)]
        have hfrac : lam * (1 / ((L.getD row default).coeff k2 * lam)) =
            1 / (L.getD row default).coeff k2 := by
          rw [mul_comm ((L.getD row default).coeff k2) lam]
          rw [one_div, mul_inv, ← mul_assoc, mul_inv_cancel₀ hlam, one_mul, one_div]
        rw [hfrac]
        exact ih hplt (1 / (L.getD row default).coeff k2) (one_div_ne_zero hrc)

theorem normPass_id (L : List Plane) (row : ℕ) (hrow : row < L.length) (k : ℕ)
    (hcase : pivAt L row = none ∨
      ∃ p, pivAt L row = some p ∧ coeffAt L row p = 1 ∧ p < k) :
    normPass row L k = L := by
  rcases hcase with hnone | ⟨p, hpv, hp1, hpk⟩
  · exact normPass_skip row L k
      (fun c _ => pivotIdx_none_all_zero (v := (L.getD row default).normal_vector)
        hnone c)
  · have hL : L = L.set row ((L.getD row default).mul 1) := by
      rw [Plane.mul_one_eq, set_getD_self default hrow]
    conv_lhs => rw [hL]
    exact normPass_scaled L row hrow p hpv hp1 k hpk 1 one_ne_zero

theorem normRowsGo_zero (rs : List ℕ) (ps : List Plane) :
    normRowsGo 0 rs ps = ps := by
  induction rs generalizing ps with
  | nil => rfl
  | cons row rest ih => exact ih ps

theorem normRowsGo_id (L : List Plane) (n : ℕ)
    (hwf : ∀ p ∈ L, p.normal_vector.length = n)
    (pone : ∀ i, i < L.length → (pivAt L i).isSome →
      coeffAt L i ((pivAt L i).getD 0) = 1) :
    normRowsGo n (List.range L.length).reverse L = L := by
  cases hm : L.length with
  | zero => rfl
  | succ m2 =>
    have hm2 : m2 < L.length := by omega
    simp only [List.range_succ, List.reverse_append, List.reverse_singleton,
      List.singleton_append]
    have hpass : normPass m2 L n = L := by
      apply normPass_id L m2 hm2 n
      cases hpv : pivAt L m2 with
      | none => exact Or.inl rfl
      | some p =>
        refine Or.inr ⟨p, rfl, ?_, ?_⟩
        · have := pone m2 hm2 (by rw [hpv]; rfl)
          rwa [show (pivAt L m2).getD 0 = p from by rw [hpv]; rfl] at this
        · have hlt := pivotIdx_lt_length
            (v := (L.getD m2 default).normal_vector) (k := p) hpv
          rw [hwf _ (getD_mem hm2 default)] at hlt
          exact hlt
    show normRowsGo 0 (List.range m2).reverse (normPass m2 L n) = L
    rw [hpass]
    exact normRowsGo_zero _ _

/-! ## C8 -/

/-- C8: compute_rref_form is idempotent: a well-formed system already in
reduced row-echelon form is returned exactly unchanged (the triangular
phase finds every pivot in place, the backward clearing pass only ever
subtracts combinations of under rows that it fully restores at their pivot
columns, and the normalization pass rescales the bottom row back to
itself). -/
theorem c8_rref_idempotent (s : LinearSystem) (hwf : WF s) (hrref : IsRREF s) :
    s.compute_rref_form = s := by
  obtain ⟨bottom, mono, pone, pcol⟩ := hrref
  have hA := compute_triangular_formAux_rref s hwf bottom mono pcol
  have hB := rrefRowsGo_id s.planes s.dimension hwf mono pone pcol
    (List.range s.planes.length).reverse
    (fun row hmem => by
      rw [List.mem_reverse, List.mem_range] at hmem
      exact hmem)
  have hC := normRowsGo_id s.planes s.dimension hwf pone
  unfold LinearSystem.compute_rref_form compute_rref_formAux
  rw [hA]
  show (⟨normRowsGo s.dimension (List.range s.planes.length).reverse
      (rrefRowsGo s.planes.length s.dimension (List.range s.planes.length).reverse
        s.planes),
      s.dimension⟩ : LinearSystem) = s
  rw [hB, hC]

/-- Witness for C8: a concrete RREF system with a nontrivial free column
is returned unchanged by compute_rref_form. -/
theorem c8_rref_idempotent_witness :
    WF ⟨[⟨[1, 0, 2], 5⟩, ⟨[0, 1, 3], -1⟩], 3⟩ ∧
    IsRREF ⟨[⟨[1, 0, 2], 5⟩, ⟨[0, 1, 3], -1⟩], 3⟩ ∧
    LinearSystem.compute_rref_form ⟨[⟨[1, 0, 2], 5⟩, ⟨[0, 1, 3], -1⟩], 3⟩ =
      ⟨[⟨[1, 0, 2], 5⟩, ⟨[0, 1, 3], -1⟩], 3⟩ :=
  ⟨by with_unfolding_all decide, by with_unfolding_all decide,
   c8_rref_idempotent ⟨[⟨[1, 0, 2], 5⟩, ⟨[0, 1, 3], -1⟩], 3⟩
     (by with_unfolding_all decide) (by with_unfolding_all decide)⟩

end LinSys
